import Mathlib

/-!
# Verification of `parserCharacters.ts`

A shallow embedding of the conservative character-list parser
(`parseDataset` / `stringifyDataset`) and proofs about it.

Modelling conventions:
* Text is `List Char` (`Str`); `String.trim` becomes `trim` below.
* JavaScript object identity is modelled arena-style: every constructed
  character node carries a unique `id : Nat`, drawn from a counter threaded
  through parsing.  Identity-based `Set` membership in the source becomes
  membership of `id`s.
* The mutually recursive parsing functions are fuel-indexed (structural
  recursion on the fuel), so that all definitions compute by `rfl`/`decide`.
  The wrappers supply fuel that is larger than the recursion can consume
  (the recursion always either consumes a character or descends into a
  strictly shorter bracket interior, so `(length + 3)^2` is ample).
* The `message` field of issues (fixed human-readable text, inspected
  nowhere) is elided; `code`, `raw` and `path` are kept.
-/

set_option maxRecDepth 100000

abbrev Str := List Char

/-- JavaScript `String.prototype.trim` whitespace test (ASCII subset that
occurs in this grammar). -/
def isWS (c : Char) : Bool := c = ' ' || c = '\t' || c = '\n' || c = '\r'

/-- JavaScript `s.trim()`. -/
def trim (s : Str) : Str := ((s.dropWhile isWS).reverse.dropWhile isWS).reverse

/-- The nine fixed issue codes of `ParseIssue`. -/
inductive IssueCode where
  | MISSING_NAME
  | INVALID_MEMBER_ALIAS_ONLY
  | INVALID_FRAGMENT_ORDER
  | UNMATCHED_ROUND
  | NESTED_ROUND_NOT_ALLOWED
  | UNMATCHED_SQUARE
  | AMBIGUOUS_SQUARE_LIST
  | EXTRA_CLOSING_ROUND
  | EXTRA_CLOSING_SQUARE
deriving DecidableEq, Repr

/-- The `ParseIssue` of the source (the constant `message` text elided). -/
structure ParseIssue where
  code : IssueCode
  raw : Str
  path : Str
deriving DecidableEq, Repr

mutual
/-- The `Fragment` of the source: one bracketed annotation.  The member
sequence is encoded by `CharacterList` (isomorphic to `List Character`,
kept inside the mutual family so that structural recursion applies). -/
inductive Fragment where
  | group (raw : Str) (members : CharacterList) : Fragment
  | alias (raw : Str) : Fragment
  | info (raw : Str) : Fragment
/-- Ordered fragment sequence of a node (isomorphic to `List Fragment`). -/
inductive FragmentList where
  | nil : FragmentList
  | cons (f : Fragment) (fs : FragmentList) : FragmentList
/-- The `CharacterNode` of the source (`kind: "node"`); `id` models object
identity (see header). -/
inductive CharacterNode where
  | mk (id : Nat) (name : Str) (fragments : FragmentList) : CharacterNode
/-- The `Character` of the source: a named node or a raw-text member. -/
inductive Character where
  | node (n : CharacterNode) : Character
  | raw (raw : Str) : Character
/-- Ordered member sequence of a group (isomorphic to `List Character`). -/
inductive CharacterList where
  | nil : CharacterList
  | cons (c : Character) (cs : CharacterList) : CharacterList
end

deriving instance DecidableEq for Fragment, FragmentList, CharacterNode, Character, CharacterList

def CharacterNode.id : CharacterNode → Nat
  | .mk i _ _ => i

def CharacterNode.name : CharacterNode → Str
  | .mk _ n _ => n

def CharacterNode.fragments : CharacterNode → FragmentList
  | .mk _ _ fs => fs

/-- View a `FragmentList` as a `List`. -/
def FragmentList.toList : FragmentList → List Fragment
  | .nil => []
  | .cons f fs => f :: fs.toList

/-- View a `CharacterList` as a `List`. -/
def CharacterList.toList : CharacterList → List Character
  | .nil => []
  | .cons c cs => c :: cs.toList

/-- The `Dataset` of the source. -/
structure Dataset where
  entries : List CharacterNode
  issuesDetailed : List ParseIssue
deriving DecidableEq

/-- Loop body of `scanTopLevel` (source lines 114-166).  `rem` is the
unscanned suffix `s.slice(i)`, `i` its absolute start index, `round`/`sq`
the two depth counters.  The callback receives its running state and is
invoked exactly when both counters are zero; returning `false` stops the
scan early (never used by the callers in the source, but kept faithful). -/
def scanTopLevelGo {σ : Type} (path : Str) (cb : σ → Char → Nat → σ × Bool) :
    Str → Nat → Nat → Nat → List ParseIssue → σ → List ParseIssue × σ × Bool
  | [], _, _, _, iss, st => (iss, st, true)
  | c :: rest, i, round, sq, iss, st =>
    if c = '(' then scanTopLevelGo path cb rest (i + 1) (round + 1) sq iss st
    else if c = ')' then
      if 0 < round then scanTopLevelGo path cb rest (i + 1) (round - 1) sq iss st
      else scanTopLevelGo path cb rest (i + 1) round sq
        (iss ++ [⟨.EXTRA_CLOSING_ROUND, c :: rest, path⟩]) st
    else if c = '[' then scanTopLevelGo path cb rest (i + 1) round (sq + 1) iss st
    else if c = ']' then
      if 0 < sq then scanTopLevelGo path cb rest (i + 1) round (sq - 1) iss st
      else scanTopLevelGo path cb rest (i + 1) round sq
        (iss ++ [⟨.EXTRA_CLOSING_SQUARE, c :: rest, path⟩]) st
    else if round = 0 && sq = 0 then
      match cb st c i with
      | (st2, true) => scanTopLevelGo path cb rest (i + 1) round sq iss st2
      | (st2, false) => (iss, st2, false)
    else scanTopLevelGo path cb rest (i + 1) round sq iss st

/-- The `scanTopLevel` of the source. -/
def scanTopLevel {σ : Type} (s : Str) (path : Str) (iss : List ParseIssue)
    (cb : σ → Char → Nat → σ × Bool) (st : σ) : List ParseIssue × σ × Bool :=
  scanTopLevelGo path cb s 0 0 0 iss st

/-- The `splitByTopLevelSemicolon` of the source (lines 168-181). -/
def splitByTopLevelSemicolon (s : Str) (path : Str) (iss : List ParseIssue) :
    List ParseIssue × List Str :=
  match scanTopLevel s path iss
      (fun (st : List Str × Nat) c i =>
        if c = ';' then ((st.1 ++ [(s.take i).drop st.2], i + 1), true)
        else (st, true))
      ([], 0) with
  | (iss2, (out, start), _) => (iss2, out ++ [s.drop start])

/-- The scan at source line 236: tests `inner` for a top-level `;`. -/
def scanSepCheck (s : Str) (path : Str) (iss : List ParseIssue) :
    List ParseIssue × Bool :=
  match scanTopLevel s path iss
      (fun (b : Bool) c _ => (b || c = ';', true)) false with
  | (iss2, b, _) => (iss2, b)

/-- Loop of `readRoundFlat` (source lines 297-341): `rem` is the text after
the opening `(`, `depth` the current nesting depth, `acc` the consumed
interior (reversed), `sawNested` whether a nested `(` was seen.  Returns
`(inner, rest, sawNested, matched)`. -/
def readRoundGo : Str → Nat → Str → Bool → Str × Str × Bool × Bool
  | [], _, acc, sawNested => (acc.reverse, [], sawNested, false)
  | c :: rest, depth, acc, sawNested =>
    if c = '(' then readRoundGo rest (depth + 1) (c :: acc) true
    else if c = ')' then
      if depth = 1 then (acc.reverse, rest, sawNested, true)
      else readRoundGo rest (depth - 1) (c :: acc) sawNested
    else readRoundGo rest depth (c :: acc) sawNested

/-- The `readRoundFlat` of the source.  `rem` starts at the opening `(`;
returns the interior, the text after the consumed span, and the issues. -/
def readRoundFlat (rem : Str) (path : Str) (iss : List ParseIssue) :
    Str × Str × List ParseIssue :=
  match rem with
  | [] => ([], [], iss)
  | _ :: tail =>
    match readRoundGo tail 1 [] false with
    | (inner, rest, sawNested, true) =>
      (inner, rest,
        if sawNested then
          iss ++ [⟨.NESTED_ROUND_NOT_ALLOWED, '(' :: inner ++ [')'], path⟩]
        else iss)
    | (inner, rest, _, false) =>
      (inner, rest, iss ++ [⟨.UNMATCHED_ROUND, rem, path⟩])

/-- Loop of `readSquareBalanced` (source lines 345-382); fuel-indexed
because a `(` inside delegates to `readRoundFlat` and resumes at its data-
dependent continuation.  One fuel unit per consumed character suffices, and
the wrapper supplies `length + 1`. -/
def readSquareGo (path : Str) :
    Nat → Str → Nat → Str → List ParseIssue →
    (Str × Str × Bool) × List ParseIssue
  | 0, rem, _, acc, iss => ((acc.reverse, rem, false), iss)
  | _ + 1, [], _, acc, iss => ((acc.reverse, [], false), iss)
  | fuel + 1, c :: rest, depth, acc, iss =>
    if c = '[' then readSquareGo path fuel rest (depth + 1) (c :: acc) iss
    else if c = ']' then
      if depth = 1 then ((acc.reverse, rest, true), iss)
      else readSquareGo path fuel rest (depth - 1) (c :: acc) iss
    else if c = '(' then
      match readRoundFlat (c :: rest) path iss with
      | (_, rrest, iss2) =>
        let consumed := (c :: rest).take ((c :: rest).length - rrest.length)
        readSquareGo path fuel rrest depth (consumed.reverse ++ acc) iss2
    else readSquareGo path fuel rest depth (c :: acc) iss

/-- The `readSquareBalanced` of the source.  `rem` starts at the opening `[`. -/
def readSquareBalanced (rem : Str) (path : Str) (iss : List ParseIssue) :
    Str × Str × List ParseIssue :=
  match rem with
  | [] => ([], [], iss)
  | _ :: tail =>
    match readSquareGo path (tail.length + 1) tail 1 [] iss with
    | ((inner, rest, true), iss2) => (inner, rest, iss2)
    | ((inner, rest, false), iss2) =>
      (inner, rest, iss2 ++ [⟨.UNMATCHED_SQUARE, rem, path⟩])

example :
    splitByTopLevelSemicolon "a;b(x;y);c".toList "p".toList [] =
      ([], ["a".toList, "b(x;y)".toList, "c".toList]) := by decide

example :
    readRoundFlat "(origin, death) tail".toList "p".toList [] =
      ("origin, death".toList, " tail".toList, []) := by decide

example :
    readSquareBalanced "[A [B]; C] t".toList "p".toList [] =
      ("A [B]; C".toList, " t".toList, []) := by decide

/-- Parser state: the ordered issue sink plus the fresh-id counter that
models object allocation. -/
structure PState where
  issues : List ParseIssue
  nextId : Nat
deriving DecidableEq, Repr

/-- Index of the first `[` or `(` in `s` (`s.length` if none), as in the
name-scanning loop at source line 185. -/
def firstBracket (s : Str) : Nat := s.findIdx (fun c => c = '[' || c = '(')

mutual
/-- The `parseNode` of the source (lines 183-267): name extraction and
`MISSING_NAME`, then the fragment loop. -/
def parseNode : Nat → Str → Str → PState → Option CharacterNode × PState
  | 0, _, _, st => (none, st)
  | fuel + 1, entryRaw, path, st =>
    let i := firstBracket entryRaw
    let name := trim (entryRaw.take i)
    if name = [] then
      (none, { st with issues := st.issues ++ [⟨.MISSING_NAME, entryRaw, path⟩] })
    else
      match parseFragments fuel (entryRaw.drop i) path false st with
      | (fragments, st2) =>
        (some (.mk st2.nextId name fragments), { st2 with nextId := st2.nextId + 1 })
  termination_by structural n _ _ _ => n

/-- The fragment loop of `parseNode` (source lines 201-264).  `rem` is the
unconsumed entry text, `seenInfo` the flag set by `(` fragments. -/
def parseFragments : Nat → Str → Str → Bool → PState → FragmentList × PState
  | 0, _, _, _, st => (.nil, st)
  | _ + 1, [], _, _, st => (.nil, st)
  | fuel + 1, c :: rest, path, seenInfo, st =>
    if c = ' ' then parseFragments fuel rest path seenInfo st
    else if c = '(' then
      match readRoundFlat (c :: rest) path st.issues with
      | (inner, rrest, iss2) =>
        match parseFragments fuel rrest path true { st with issues := iss2 } with
        | (frs, st2) => (.cons (Fragment.info (trim inner)) frs, st2)
    else if c = '[' then
      let iss1 :=
        if seenInfo then
          st.issues ++ [⟨.INVALID_FRAGMENT_ORDER, c :: rest, path⟩]
        else st.issues
      match readSquareBalanced (c :: rest) path iss1 with
      | (inner, rrest, iss2) =>
        match handleSquare fuel inner path { st with issues := iss2 } with
        | (fr, st2) =>
          match parseFragments fuel rrest path seenInfo st2 with
          | (frs, st3) => (.cons fr frs, st3)
    else parseFragments fuel rest path seenInfo st
  termination_by structural n _ _ _ _ => n

/-- The square-bracket disambiguation (source lines 227-256): `inner` is
the interior returned by `readSquareBalanced`; decides group vs alias,
scanning `inner` for a top-level `;` first. -/
def handleSquare : Nat → Str → Str → PState → Fragment × PState
  | 0, inner, _, st => (Fragment.alias (trim inner), st)
  | fuel + 1, inner, path, st =>
    let hasNestedSquare := inner.contains '['
    match scanSepCheck inner (path ++ ".square".toList) st.issues with
    | (iss1, hasSep) =>
      if hasNestedSquare then
        match parseMemberList fuel inner (path ++ ".group".toList)
            { st with issues := iss1 } with
        | (members, st2) => (Fragment.group inner members, st2)
      else
        (Fragment.alias (trim inner),
          { st with issues :=
              if hasSep then
                iss1 ++ [⟨.AMBIGUOUS_SQUARE_LIST, '[' :: inner ++ [']'], path⟩]
              else iss1 })
  termination_by structural n _ _ _ => n

/-- The `parseMemberList` of the source (lines 269-293): split the group
interior, then parse the pieces. -/
def parseMemberList : Nat → Str → Str → PState → CharacterList × PState
  | 0, _, _, st => (.nil, st)
  | fuel + 1, inner, path, st =>
    match splitByTopLevelSemicolon inner path st.issues with
    | (iss1, parts) => parseMembers fuel parts 0 path { st with issues := iss1 }
  termination_by structural n _ _ _ => n

/-- The member loop of `parseMemberList`: `k` is the running piece index
used in diagnostic paths. -/
def parseMembers : Nat → List Str → Nat → Str → PState → CharacterList × PState
  | 0, _, _, _, st => (.nil, st)
  | _ + 1, [], _, _, st => (.nil, st)
  | fuel + 1, part :: parts, k, path, st =>
    let piece := trim part
    if piece = [] then parseMembers fuel parts (k + 1) path st
    else
      let piecePath := path ++ '[' :: (toString k).toList ++ [']']
      if piece.head? = some '[' then
        match parseMembers fuel parts (k + 1) path
            { st with issues :=
                st.issues ++ [⟨.INVALID_MEMBER_ALIAS_ONLY, piece, piecePath⟩] } with
        | (ms, st2) => (.cons (Character.raw piece) ms, st2)
      else
        match parseNode fuel piece piecePath st with
        | (n, st2) =>
          match parseMembers fuel parts (k + 1) path st2 with
          | (ms, st3) =>
            match n with
            | some node => (.cons (Character.node node) ms, st3)
            | none => (ms, st3)
  termination_by structural n _ _ _ _ => n
end

/-- Ample fuel for parsing one entry (see header). -/
def entryFuel (s : Str) : Nat := (s.length + 3) ^ 2

/-- The top-entry loop of `parseDataset` (source lines 41-47): trims each
piece, skips empty ones, parses the rest; `i` is the running piece index. -/
def parseTopGo : List Str → Nat → PState → List CharacterNode × PState
  | [], _, st => ([], st)
  | part :: parts, i, st =>
    let raw := trim part
    if raw = [] then parseTopGo parts (i + 1) st
    else
      match parseNode (entryFuel raw) raw
          ("top[".toList ++ (toString i).toList ++ "]".toList) st with
      | (n, st2) =>
        match parseTopGo parts (i + 1) st2 with
        | (ns, st3) =>
          match n with
          | some node => (node :: ns, st3)
          | none => (ns, st3)

/-- Top-level split and entry parse of `parseDataset`; returns the
top-level nodes (pre-flatten) and the final state. -/
def parseTop (input : Str) : List CharacterNode × PState :=
  match splitByTopLevelSemicolon input "input".toList [] with
  | (iss1, parts) => parseTopGo parts 0 ⟨iss1, 0⟩

/-- Traversal state of the flatten step: the identity-keyed `seen` set
(visited ids) and the accumulated `entries` in first-visit order. -/
abbrev VState := List Nat × List CharacterNode

mutual
/-- The `visit` closure of `parseDataset` (source lines 53-65). -/
def visitNode : CharacterNode → VState → VState
  | .mk i nm frs, (seen, acc) =>
    if i ∈ seen then (seen, acc)
    else visitFrags frs (i :: seen, acc ++ [.mk i nm frs])
  termination_by structural n _ => n

/-- The fragment loop inside `visit` (source lines 59-64). -/
def visitFrags : FragmentList → VState → VState
  | .nil, s => s
  | .cons (.group _ ms) fs, s => visitFrags fs (visitMembers ms s)
  | .cons (.alias _) fs, s => visitFrags fs s
  | .cons (.info _) fs, s => visitFrags fs s
  termination_by structural l _ => l

/-- The member loop inside `visit` (source lines 61-63). -/
def visitMembers : CharacterList → VState → VState
  | .nil, s => s
  | .cons (.node n) ms, s => visitMembers ms (visitNode n s)
  | .cons (.raw _) ms, s => visitMembers ms s
  termination_by structural l _ => l
end

/-- The `for (const n of top) visit(n)` loop at source line 67. -/
def visitTop (top : List CharacterNode) : List CharacterNode :=
  (top.foldl (fun s n => visitNode n s) ([], [])).2

/-- The `parseDataset` of the source (lines 36-70). -/
def parseDataset (input : Str) : Dataset :=
  match parseTop input with
  | (top, st) => { entries := visitTop top, issuesDetailed := st.issues }

mutual
/-- The `stringifyCharacter` of the source (lines 89-91). -/
def stringifyCharacter : Character → Str
  | .raw r => trim r
  | .node n => stringifyNode n
  termination_by structural c => c

/-- The `stringifyFragment` of the source (lines 93-104). -/
def stringifyFragment : Fragment → Str
  | .info r => " (".toList ++ trim r ++ [')']
  | .alias r => " [".toList ++ trim r ++ [']']
  | .group _ ms => " [".toList ++ stringifyMembersJoin ms ++ [']']
  termination_by structural f => f

/-- The expression `f.members.map(stringifyCharacter).join("; ")` at source line 102. -/
def stringifyMembersJoin : CharacterList → Str
  | .nil => []
  | .cons c .nil => stringifyCharacter c
  | .cons c (.cons c2 cs) =>
    stringifyCharacter c ++ "; ".toList ++ stringifyMembersJoin (.cons c2 cs)
  termination_by structural l => l

/-- The `stringifyNode` of the source (lines 106-110). -/
def stringifyNode : CharacterNode → Str
  | .mk _ name frs => trim name ++ stringifyFrags frs
  termination_by structural n => n

/-- The fragment loop of `stringifyNode` (source line 108). -/
def stringifyFrags : FragmentList → Str
  | .nil => []
  | .cons f fs => stringifyFragment f ++ stringifyFrags fs
  termination_by structural l => l
end

/-- Ids of the node-variant members of one member list (no recursion into
subtrees, mirroring `children.add(m)` at source line 79). -/
def memberIds : CharacterList → List Nat
  | .nil => []
  | .cons (.node n) ms => n.id :: memberIds ms
  | .cons (.raw _) ms => memberIds ms

/-- Ids of node members across all group fragments of one fragment list
(source lines 76-81). -/
def groupMemberIds : FragmentList → List Nat
  | .nil => []
  | .cons (.group _ ms) fs => memberIds ms ++ groupMemberIds fs
  | .cons (.alias _) fs => groupMemberIds fs
  | .cons (.info _) fs => groupMemberIds fs

/-- The `children` set computed by `stringifyDataset` (source lines 73-82). -/
def childIdsOf (entries : List CharacterNode) : List Nat :=
  entries.foldl (fun acc n => acc ++ groupMemberIds n.fragments) []

/-- The `stringifyDataset` of the source (lines 72-86). -/
def stringifyDataset (d : Dataset) : Str :=
  let children := childIdsOf d.entries
  let roots := d.entries.filter (fun n => !children.contains n.id)
  List.intercalate "; ".toList (roots.map stringifyNode) ++
    (if roots.isEmpty then [] else [';'])

/-! ## General lemmas about the scanner -/

/-- The issues the scanner itself produces on the suffix `s` starting at
absolute index `i` with counters `r`, `q` (recursive mirror of the issue
pushes of `scanTopLevelGo`; the bridge is `scanTopLevelGo_split`). -/
def scanIssuesFrom (path : Str) : Str → Nat → Nat → Nat → List ParseIssue
  | [], _, _, _ => []
  | c :: rest, i, r, q =>
    if c = '(' then scanIssuesFrom path rest (i + 1) (r + 1) q
    else if c = ')' then
      if 0 < r then scanIssuesFrom path rest (i + 1) (r - 1) q
      else ⟨.EXTRA_CLOSING_ROUND, c :: rest, path⟩ :: scanIssuesFrom path rest (i + 1) r q
    else if c = '[' then scanIssuesFrom path rest (i + 1) r (q + 1)
    else if c = ']' then
      if 0 < q then scanIssuesFrom path rest (i + 1) r (q - 1)
      else ⟨.EXTRA_CLOSING_SQUARE, c :: rest, path⟩ :: scanIssuesFrom path rest (i + 1) r q
    else scanIssuesFrom path rest (i + 1) r q

/-- The issues `scanTopLevel` itself produces on `s`. -/
def scanIssues (s : Str) (path : Str) : List ParseIssue := scanIssuesFrom path s 0 0 0

/-- The `(character, index)` pairs passed to the callback (the top-level
characters) on the suffix `s` starting at `i` with counters `r`, `q`
(recursive mirror of the callback invocations of `scanTopLevelGo`). -/
def topLevelCharsFrom : Str → Nat → Nat → Nat → List (Char × Nat)
  | [], _, _, _ => []
  | c :: rest, i, r, q =>
    if c = '(' then topLevelCharsFrom rest (i + 1) (r + 1) q
    else if c = ')' then
      if 0 < r then topLevelCharsFrom rest (i + 1) (r - 1) q
      else topLevelCharsFrom rest (i + 1) r q
    else if c = '[' then topLevelCharsFrom rest (i + 1) r (q + 1)
    else if c = ']' then
      if 0 < q then topLevelCharsFrom rest (i + 1) r (q - 1)
      else topLevelCharsFrom rest (i + 1) r q
    else if r = 0 && q = 0 then (c, i) :: topLevelCharsFrom rest (i + 1) r q
    else topLevelCharsFrom rest (i + 1) r q

/-- The top-level characters of `s` with their indices. -/
def topLevelChars (s : Str) : List (Char × Nat) := topLevelCharsFrom s 0 0 0

/-- The pieces produced by the top-level split (path-independent part). -/
def splitPieces (s : Str) : List Str :=
  (splitByTopLevelSemicolon s [] []).2

/-- The top-level-separator test computed by the scan at source line 236. -/
def hasTopSep (s : Str) : Bool := (scanSepCheck s [] []).2

/-- The square-bracket step of the fragment loop once the
`INVALID_FRAGMENT_ORDER` decision has produced the issue list `iss1`:
read the balanced span, disambiguate, continue the loop (source lines
227-259). -/
def squareStep (fuel : Nat) (rem path : Str) (seenInfo : Bool)
    (iss1 : List ParseIssue) (st : PState) : FragmentList × PState :=
  match readSquareBalanced rem path iss1 with
  | (inner, rrest, iss2) =>
    match handleSquare fuel inner path { st with issues := iss2 } with
    | (fr, st2) =>
      match parseFragments fuel rrest path seenInfo st2 with
      | (frs, st3) => (.cons fr frs, st3)

/-- Spec-side: node `n` is referenced (by identity) as a member of some
group fragment of some entry. -/
def Referenced (entries : List CharacterNode) (n : CharacterNode) : Prop :=
  ∃ e ∈ entries, ∃ raw ms, Fragment.group raw ms ∈ e.fragments.toList ∧
    ∃ nn, Character.node nn ∈ ms.toList ∧ nn.id = n.id

/-- Spec-side: one step of the scanner's two clamped depth counters. -/
def depthStep (rq : Nat × Nat) (c : Char) : Nat × Nat :=
  if c = '(' then (rq.1 + 1, rq.2)
  else if c = ')' then (if 0 < rq.1 then rq.1 - 1 else rq.1, rq.2)
  else if c = '[' then (rq.1, rq.2 + 1)
  else if c = ']' then (rq.1, if 0 < rq.2 then rq.2 - 1 else rq.2)
  else rq

/-- Spec-side: the (round, square) depth counters just before position `i`. -/
def depthAt (s : Str) (i : Nat) : Nat × Nat := (s.take i).foldl depthStep (0, 0)

/-- The positions at which the top-level split cuts `s`. -/
def splitBoundaries (s : Str) : List Nat :=
  (topLevelChars s).filterMap (fun p => if p.1 = ';' then some p.2 else none)

/-- The pieces of `s` obtained by cutting at the given ascending positions
(each cut position itself is dropped). -/
def slicesAt (s : Str) (start : Nat) : List Nat → List Str
  | [] => [s.drop start]
  | b :: bs => (s.take b).drop start :: slicesAt s (b + 1) bs

/-- One cut step of the split's callback state. -/
def splitCutStep (s : Str) (st : List Str × Nat) (p : Char × Nat) : List Str × Nat :=
  if p.1 = ';' then (st.1 ++ [(s.take p.2).drop st.2], p.2 + 1) else st

mutual
/-- Spec-side: first-visit depth-first left-to-right preorder of a node's
subtree (no visited guard). -/
def preNode : CharacterNode → List CharacterNode
  | .mk i nm frs => .mk i nm frs :: preFrags frs
  termination_by structural n => n

/-- Spec-side preorder over a fragment sequence. -/
def preFrags : FragmentList → List CharacterNode
  | .nil => []
  | .cons (.group _ ms) fs => preMembers ms ++ preFrags fs
  | .cons (.alias _) fs => preFrags fs
  | .cons (.info _) fs => preFrags fs
  termination_by structural l => l

/-- Spec-side preorder over a member sequence. -/
def preMembers : CharacterList → List CharacterNode
  | .nil => []
  | .cons (.node n) ms => preNode n ++ preMembers ms
  | .cons (.raw _) ms => preMembers ms
  termination_by structural l => l
end

/-- Spec-side preorder of the top-level forest. -/
def preTop (top : List CharacterNode) : List CharacterNode := (top.map preNode).flatten

/-- Preorder contribution of one fragment. -/
def preFrag : Fragment → List CharacterNode
  | .group _ ms => preMembers ms
  | .alias _ => []
  | .info _ => []

/-- All ids of `l` lie in `[lo, hi)` and are distinct. -/
def IdsIn (l : List CharacterNode) (lo hi : Nat) : Prop :=
  (∀ x ∈ l.map CharacterNode.id, lo ≤ x ∧ x < hi) ∧ (l.map CharacterNode.id).Nodup

/-- Master decomposition of the scanner for a callback that never requests
an early stop: issues are the incoming ones followed by the scan's own
(callback-independent) issues, and the final callback state is a fold of
the callback over the top-level characters. -/
theorem scanTopLevelGo_split {σ : Type} (path : Str) (cb : σ → Char → Nat → σ × Bool)
    (hcb : ∀ st c i, (cb st c i).2 = true) :
    ∀ (s : Str) (i r q : Nat) (iss : List ParseIssue) (st : σ),
      scanTopLevelGo path cb s i r q iss st =
        (iss ++ scanIssuesFrom path s i r q,
         List.foldl (fun st p => (cb st p.1 p.2).1) st (topLevelCharsFrom s i r q),
         true) := by
  intro s
  induction s with
  | nil => intro i r q iss st; simp [scanTopLevelGo, scanIssuesFrom, topLevelCharsFrom]
  | cons c rest ih =>
    intro i r q iss st
    simp only [scanTopLevelGo]
    split_ifs with h1 h2 h3 h4 h5 h6 h7
    · rw [ih]; simp [scanIssuesFrom, topLevelCharsFrom, h1]
    · rw [ih]; simp [scanIssuesFrom, topLevelCharsFrom, h1, h2, h3]
    · rw [ih]; simp [scanIssuesFrom, topLevelCharsFrom, h1, h2, h3]
    · rw [ih]; simp [scanIssuesFrom, topLevelCharsFrom, h1, h2, h4]
    · rw [ih]; simp [scanIssuesFrom, topLevelCharsFrom, h1, h2, h4, h5, h6]
    · rw [ih]; simp [scanIssuesFrom, topLevelCharsFrom, h1, h2, h4, h5, h6]
    · rcases hcb2 : cb st c i with ⟨st2, b⟩
      have hb := hcb st c i
      rw [hcb2] at hb
      subst hb
      simp only [hcb2]
      rw [ih]
      simp [scanIssuesFrom, topLevelCharsFrom, h1, h2, h4, h5, h7, hcb2]
    · rw [ih]; simp [scanIssuesFrom, topLevelCharsFrom, h1, h2, h4, h5, h7]

theorem splitByTopLevelSemicolon_eq (s path : Str) (iss : List ParseIssue) :
    splitByTopLevelSemicolon s path iss = (iss ++ scanIssues s path, splitPieces s) := by
  simp only [splitByTopLevelSemicolon, splitPieces, scanTopLevel, scanIssues]
  rw [scanTopLevelGo_split path _
      (by intro st c i; by_cases h : c = ';' <;> simp [h]),
    scanTopLevelGo_split ([] : Str) _
      (by intro st c i; by_cases h : c = ';' <;> simp [h])]

theorem scanSepCheck_eq (s path : Str) (iss : List ParseIssue) :
    scanSepCheck s path iss =
      (iss ++ scanIssues s path,
       (topLevelChars s).foldl (fun b p => b || p.1 = ';') false) := by
  simp only [scanSepCheck, scanTopLevel, scanIssues, topLevelChars]
  rw [scanTopLevelGo_split path _ (by intro st c i; rfl)]

/-- Scan issues carry only the two stray-closer codes. -/
theorem scanIssuesFrom_codes (path : Str) :
    ∀ (s : Str) (i r q : Nat) (x : ParseIssue), x ∈ scanIssuesFrom path s i r q →
      x.code = .EXTRA_CLOSING_ROUND ∨ x.code = .EXTRA_CLOSING_SQUARE := by
  intro s
  induction s with
  | nil => intro i r q x hx; simp [scanIssuesFrom] at hx
  | cons c rest ih =>
    intro i r q x hx
    simp only [scanIssuesFrom] at hx
    split_ifs at hx with h1 h2 h3 h4 h5 h6
    any_goals exact ih _ _ _ _ hx
    · rcases List.mem_cons.mp hx with h | h
      · left; rw [h]
      · exact ih _ _ _ _ h
    · rcases List.mem_cons.mp hx with h | h
      · right; rw [h]
      · exact ih _ _ _ _ h

/-- Scan issues are path-independent up to the `path` field itself. -/
theorem scanIssuesFrom_code_raw (p p' : Str) :
    ∀ (s : Str) (i r q : Nat),
      (scanIssuesFrom p s i r q).map (fun x => (x.code, x.raw)) =
        (scanIssuesFrom p' s i r q).map (fun x => (x.code, x.raw)) := by
  intro s
  induction s with
  | nil => intro i r q; simp [scanIssuesFrom]
  | cons c rest ih =>
    intro i r q
    simp only [scanIssuesFrom]
    split_ifs with h1 h2 h3 h4 h5 h6
    any_goals exact ih _ _ _
    · simp only [List.map_cons, ih _ _ _]
    · simp only [List.map_cons, ih _ _ _]

theorem scanSepCheck_eq2 (s path : Str) (iss : List ParseIssue) :
    scanSepCheck s path iss = (iss ++ scanIssues s path, hasTopSep s) := by
  rw [scanSepCheck_eq, hasTopSep, scanSepCheck_eq]

/-! ## C9 -/

/-- C9: `stringifyDataset` reads only the `entries` field of its argument;
two datasets with identical entries but arbitrarily different
`issuesDetailed` render identically. -/
theorem stringifyDataset_ignores_issues (entries : List CharacterNode)
    (iss1 iss2 : List ParseIssue) :
    stringifyDataset ⟨entries, iss1⟩ = stringifyDataset ⟨entries, iss2⟩ := rfl

/-! ## C3 -/

/-- C3: an entry whose text before the first `[` or `(` trims to the empty
string yields a `MISSING_NAME` issue whose `raw` is the entry text, no
node, and an otherwise untouched state; in particular `"[Solo];"` parses
to an empty `entries` sequence with exactly the `MISSING_NAME` issue. -/
theorem parseNode_missing_name :
    (∀ (fuel : Nat) (e path : Str) (st : PState),
        trim (e.take (firstBracket e)) = [] →
        parseNode (fuel + 1) e path st =
          (none, { st with issues := st.issues ++ [⟨.MISSING_NAME, e, path⟩] })) ∧
    parseDataset "[Solo];".toList =
      ⟨[], [⟨.MISSING_NAME, "[Solo]".toList, "top[0]".toList⟩]⟩ := by
  constructor
  · intro fuel e path st h
    simp [parseNode, h]
  · decide

/-- Witness for C3's hypothesis at the concrete entry `"[Solo]"`. -/
theorem parseNode_missing_name_witness :
    parseNode 5 "[Solo]".toList "top[0]".toList ⟨[], 0⟩ =
      (none, ⟨[⟨.MISSING_NAME, "[Solo]".toList, "top[0]".toList⟩], 0⟩) := by
  have h := parseNode_missing_name.1 4 "[Solo]".toList "top[0]".toList ⟨[], 0⟩ (by decide)
  simpa using h

/-! ## C4 -/

/-- C4: a `(...)` span consumed by the node parser contributes exactly one
`info` fragment whose `raw` is the trimmed interior verbatim (never split
at commas); concretely, `"Jimmy Olsen (origin, death);"` parses to one
node with the single info fragment `"origin, death"` and renders back to
the input. -/
theorem parseFragments_round_single_info :
    (∀ (fuel : Nat) (rest path : Str) (b : Bool) (st : PState),
        parseFragments (fuel + 1) ('(' :: rest) path b st =
          (.cons (Fragment.info (trim (readRoundFlat ('(' :: rest) path st.issues).1))
              (parseFragments fuel (readRoundFlat ('(' :: rest) path st.issues).2.1 path true
                { st with issues := (readRoundFlat ('(' :: rest) path st.issues).2.2 }).1,
            (parseFragments fuel (readRoundFlat ('(' :: rest) path st.issues).2.1 path true
              { st with issues := (readRoundFlat ('(' :: rest) path st.issues).2.2 }).2)) ∧
    (parseDataset "Jimmy Olsen (origin, death);".toList).entries =
      [.mk 0 "Jimmy Olsen".toList (.cons (.info "origin, death".toList) .nil)] ∧
    stringifyDataset (parseDataset "Jimmy Olsen (origin, death);".toList) =
      "Jimmy Olsen (origin, death);".toList := by
  refine ⟨?_, by decide, by decide⟩
  intro fuel rest path b st
  rcases h : readRoundFlat ('(' :: rest) path st.issues with ⟨inner, rrest, iss2⟩
  simp [parseFragments, h]

/-! ## C1 -/

/-- C1 (code bug): rendering is NOT a fixed point of the parse-render
pipeline: for `x = "A[("` the first canonical form is `"A [(];"` but
re-parsing and re-rendering yields `"A [(];];"`.  This contradicts the
repository's own idempotence harness (`indempotenceTest.js`) and the
spec's idempotence property. -/
theorem roundtrip_not_idempotent :
    stringifyDataset (parseDataset "A[(".toList) = "A [(];".toList ∧
    stringifyDataset (parseDataset (stringifyDataset (parseDataset "A[(".toList))) =
      "A [(];];".toList ∧
    stringifyDataset (parseDataset (stringifyDataset (parseDataset "A[(".toList))) ≠
      stringifyDataset (parseDataset "A[(".toList) := by
  exact ⟨by decide, by decide, by decide⟩

/-! ## C7 -/

/-- C7 (counterexample): parsing `"Iota [A] (x) [B] (y);"` emits exactly
one `INVALID_FRAGMENT_ORDER` issue, not two as the claim states. -/
theorem invalid_order_issue_count :
    ((parseDataset "Iota [A] (x) [B] (y);".toList).issuesDetailed.filter
        (fun i => i.code = IssueCode.INVALID_FRAGMENT_ORDER)).length = 1 ∧
    ((parseDataset "Iota [A] (x) [B] (y);".toList).issuesDetailed.filter
        (fun i => i.code = IssueCode.INVALID_FRAGMENT_ORDER)).length ≠ 2 := by
  exact ⟨by decide, by decide⟩

/-- C7 (amended): parsing `"Iota [A] (x) [B] (y);"` emits exactly one
`INVALID_FRAGMENT_ORDER` issue — for the `[B]` bracket following the
`(x)` info fragment — with `raw` the remaining entry text from that
bracket onward, and parsing continues (all four fragments are kept).  In
general a `[` fires the violation exactly when an info fragment has
already been seen: with `seenInfo = true` the issue for the full
remaining text is pushed before the bracket is read, with
`seenInfo = false` nothing is pushed at this step. -/
theorem invalid_order_single_issue :
    ((parseDataset "Iota [A] (x) [B] (y);".toList).issuesDetailed.filter
        (fun i => i.code = IssueCode.INVALID_FRAGMENT_ORDER)) =
      [⟨.INVALID_FRAGMENT_ORDER, "[B] (y)".toList, "top[0]".toList⟩] ∧
    ((parseDataset "Iota [A] (x) [B] (y);".toList).entries.map fun n => n.fragments) =
      [.cons (.alias "A".toList) (.cons (.info "x".toList)
        (.cons (.alias "B".toList) (.cons (.info "y".toList) .nil)))] ∧
    (∀ (fuel : Nat) (rest path : Str) (st : PState),
        parseFragments (fuel + 1) ('[' :: rest) path true st =
          squareStep fuel ('[' :: rest) path true
            (st.issues ++ [⟨.INVALID_FRAGMENT_ORDER, '[' :: rest, path⟩]) st) ∧
    (∀ (fuel : Nat) (rest path : Str) (st : PState),
        parseFragments (fuel + 1) ('[' :: rest) path false st =
          squareStep fuel ('[' :: rest) path false st.issues st) := by
  refine ⟨by decide, by decide, ?_, ?_⟩ <;> intro fuel rest path st <;> rfl

/-! ## C2 -/

/-- C2 (counterexample): a square fragment whose interior is `")"` has no
`[` and no top-level `;`, is classified as an alias — but an issue IS
emitted (`EXTRA_CLOSING_ROUND` from the scan of the interior), refuting
"with neither, it is one alias fragment with no issue". -/
theorem square_neither_case_issue :
    (")".toList.contains '[') = false ∧
    hasTopSep ")".toList = false ∧
    (handleSquare 5 ")".toList "top[0]".toList ⟨[], 0⟩).1 = Fragment.alias ")".toList ∧
    (handleSquare 5 ")".toList "top[0]".toList ⟨[], 0⟩).2.issues ≠ [] := by
  exact ⟨by decide, by decide, by decide, by decide⟩

/-- C2 (amended): for a square fragment with interior `inner`: if `inner`
contains any `[` it becomes a group whose members are recursively parsed
from `inner`; otherwise if `inner` has a top-level `;`, an
`AMBIGUOUS_SQUARE_LIST` issue with `raw` the full bracketed text is
emitted and the whole trimmed interior becomes exactly one alias fragment,
never split; with neither, it is one alias fragment and no
`AMBIGUOUS_SQUARE_LIST` issue is emitted — though the interior scan may
still emit `EXTRA_CLOSING_ROUND`/`EXTRA_CLOSING_SQUARE` issues for stray
closers (these are the only codes it can add). -/
theorem square_classification :
    ∀ (fuel : Nat) (inner path : Str) (st : PState),
      (inner.contains '[' = true →
        handleSquare (fuel + 1) inner path st =
          ((Fragment.group inner
              (parseMemberList fuel inner (path ++ ".group".toList)
                { st with issues :=
                    st.issues ++ scanIssues inner (path ++ ".square".toList) }).1),
            (parseMemberList fuel inner (path ++ ".group".toList)
              { st with issues :=
                  st.issues ++ scanIssues inner (path ++ ".square".toList) }).2)) ∧
      (inner.contains '[' = false → hasTopSep inner = true →
        handleSquare (fuel + 1) inner path st =
          (Fragment.alias (trim inner),
            { st with issues :=
                st.issues ++ scanIssues inner (path ++ ".square".toList) ++
                  [⟨.AMBIGUOUS_SQUARE_LIST, '[' :: inner ++ [']'], path⟩] })) ∧
      (inner.contains '[' = false → hasTopSep inner = false →
        handleSquare (fuel + 1) inner path st =
          (Fragment.alias (trim inner),
            { st with issues :=
                st.issues ++ scanIssues inner (path ++ ".square".toList) })) ∧
      (∀ x ∈ scanIssues inner (path ++ ".square".toList),
        x.code = .EXTRA_CLOSING_ROUND ∨ x.code = .EXTRA_CLOSING_SQUARE) := by
  intro fuel inner path st
  refine ⟨?_, ?_, ?_, fun x hx => scanIssuesFrom_codes _ _ _ _ _ x hx⟩
  · intro h1
    simp only [handleSquare, scanSepCheck_eq2, h1]
    rcases hm : parseMemberList fuel inner (path ++ ".group".toList)
      { st with issues := st.issues ++ scanIssues inner (path ++ ".square".toList) }
      with ⟨members, st2⟩
    simp [hm]
  · intro h1 h2
    simp only [handleSquare, scanSepCheck_eq2, h1, h2]
    simp
  · intro h1 h2
    simp only [handleSquare, scanSepCheck_eq2, h1, h2]
    simp

/-- Witness for C2's hypotheses: the three classification cases at the
concrete interiors `"x[y]"`, `"a; b"` and `"a b"`. -/
theorem square_classification_witness :
    (handleSquare 3 "x[y]".toList "p".toList ⟨[], 0⟩ =
      ((Fragment.group "x[y]".toList
          (parseMemberList 2 "x[y]".toList ("p".toList ++ ".group".toList)
            { (⟨[], 0⟩ : PState) with issues :=
                ((⟨[], 0⟩ : PState).issues ++
                  scanIssues "x[y]".toList ("p".toList ++ ".square".toList)) }).1),
        (parseMemberList 2 "x[y]".toList ("p".toList ++ ".group".toList)
          { (⟨[], 0⟩ : PState) with issues :=
              ((⟨[], 0⟩ : PState).issues ++
                scanIssues "x[y]".toList ("p".toList ++ ".square".toList)) }).2)) ∧
    (handleSquare 3 "a; b".toList "p".toList ⟨[], 0⟩ =
      (Fragment.alias (trim "a; b".toList),
        { (⟨[], 0⟩ : PState) with issues :=
            ((⟨[], 0⟩ : PState).issues ++
              scanIssues "a; b".toList ("p".toList ++ ".square".toList) ++
                [⟨.AMBIGUOUS_SQUARE_LIST, '[' :: "a; b".toList ++ [']'], "p".toList⟩]) })) ∧
    (handleSquare 3 "a b".toList "p".toList ⟨[], 0⟩ =
      (Fragment.alias (trim "a b".toList),
        { (⟨[], 0⟩ : PState) with issues :=
            ((⟨[], 0⟩ : PState).issues ++
              scanIssues "a b".toList ("p".toList ++ ".square".toList)) })) :=
  ⟨(square_classification 2 "x[y]".toList "p".toList ⟨[], 0⟩).1 (by decide),
   (square_classification 2 "a; b".toList "p".toList ⟨[], 0⟩).2.1 (by decide) (by decide),
   (square_classification 2 "a b".toList "p".toList ⟨[], 0⟩).2.2.1 (by decide) (by decide)⟩

/-! ## C5 -/

theorem mem_memberIds (x : Nat) :
    ∀ ms : CharacterList, x ∈ memberIds ms ↔
      ∃ nn, Character.node nn ∈ ms.toList ∧ nn.id = x
  | .nil => by simp [memberIds, CharacterList.toList]
  | .cons (.node nn) cs => by
    simp only [memberIds, CharacterList.toList, List.mem_cons, mem_memberIds x cs]
    constructor
    · rintro (h | ⟨nn2, h2, h3⟩)
      · exact ⟨nn, Or.inl rfl, h.symm⟩
      · exact ⟨nn2, Or.inr h2, h3⟩
    · rintro ⟨nn2, h2 | h2, h3⟩
      · cases h2
        exact Or.inl h3.symm
      · exact Or.inr ⟨nn2, h2, h3⟩
  | .cons (.raw r) cs => by
    simp only [memberIds, CharacterList.toList, List.mem_cons, mem_memberIds x cs]
    constructor
    · rintro ⟨nn2, h2, h3⟩
      exact ⟨nn2, Or.inr h2, h3⟩
    · rintro ⟨nn2, h2 | h2, h3⟩
      · cases h2
      · exact ⟨nn2, h2, h3⟩
  termination_by structural ms => ms

theorem mem_groupMemberIds (x : Nat) :
    ∀ fs : FragmentList, x ∈ groupMemberIds fs ↔
      ∃ raw ms, Fragment.group raw ms ∈ fs.toList ∧ x ∈ memberIds ms
  | .nil => by simp [groupMemberIds, FragmentList.toList]
  | .cons (.group raw ms) fs => by
    simp only [groupMemberIds, FragmentList.toList, List.mem_cons, List.mem_append,
      mem_groupMemberIds x fs]
    constructor
    · rintro (h | ⟨raw2, ms2, h2, h3⟩)
      · exact ⟨raw, ms, Or.inl rfl, h⟩
      · exact ⟨raw2, ms2, Or.inr h2, h3⟩
    · rintro ⟨raw2, ms2, h2 | h2, h3⟩
      · cases h2
        exact Or.inl h3
      · exact Or.inr ⟨raw2, ms2, h2, h3⟩
  | .cons (.alias r) fs => by
    simp only [groupMemberIds, FragmentList.toList, List.mem_cons, mem_groupMemberIds x fs]
    constructor
    · rintro ⟨raw2, ms2, h2, h3⟩
      exact ⟨raw2, ms2, Or.inr h2, h3⟩
    · rintro ⟨raw2, ms2, h2 | h2, h3⟩
      · cases h2
      · exact ⟨raw2, ms2, h2, h3⟩
  | .cons (.info r) fs => by
    simp only [groupMemberIds, FragmentList.toList, List.mem_cons, mem_groupMemberIds x fs]
    constructor
    · rintro ⟨raw2, ms2, h2, h3⟩
      exact ⟨raw2, ms2, Or.inr h2, h3⟩
    · rintro ⟨raw2, ms2, h2 | h2, h3⟩
      · cases h2
      · exact ⟨raw2, ms2, h2, h3⟩
  termination_by structural fs => fs

theorem foldl_append_eq {α β : Type} (g : β → List α) :
    ∀ (l : List β) (a : List α),
      l.foldl (fun acc n => acc ++ g n) a = a ++ (l.map g).flatten := by
  intro l
  induction l with
  | nil => simp
  | cons b bs ih => intro a; simp [ih]

theorem mem_childIdsOf (entries : List CharacterNode) (x : Nat) :
    x ∈ childIdsOf entries ↔ ∃ e ∈ entries, x ∈ groupMemberIds e.fragments := by
  simp [childIdsOf, foldl_append_eq]

/-- C5: `stringifyDataset` renders exactly the entries not referenced as a
member of any group fragment (the true roots): the output is the roots'
renderings joined by `"; "` with one trailing `;` when nonempty; roots are
a sublist of `entries` (relative order preserved); membership in the
computed `children` id set coincides with the spec's "referenced as a
member" relation, so a referenced node never appears among the rendered
top-level segments; an empty dataset renders to the empty string. -/
theorem stringifyDataset_is_root_render (d : Dataset) :
    (stringifyDataset d =
      List.intercalate "; ".toList
        ((d.entries.filter (fun n => !(childIdsOf d.entries).contains n.id)).map
          stringifyNode) ++
      (if (d.entries.filter (fun n => !(childIdsOf d.entries).contains n.id)).isEmpty
        then [] else [';'])) ∧
    (d.entries.filter (fun n => !(childIdsOf d.entries).contains n.id)).Sublist
      d.entries ∧
    (∀ n, n.id ∈ childIdsOf d.entries ↔ Referenced d.entries n) ∧
    (∀ n ∈ d.entries, Referenced d.entries n →
      n ∉ d.entries.filter (fun n => !(childIdsOf d.entries).contains n.id)) ∧
    (d.entries = [] → stringifyDataset d = []) := by
  have hiff : ∀ n : CharacterNode,
      n.id ∈ childIdsOf d.entries ↔ Referenced d.entries n := by
    intro n
    rw [mem_childIdsOf]
    constructor
    · rintro ⟨e, he, hg⟩
      rcases (mem_groupMemberIds _ _).mp hg with ⟨raw, ms, hms, hx⟩
      rcases (mem_memberIds _ _).mp hx with ⟨nn, hnn, hid⟩
      exact ⟨e, he, raw, ms, hms, nn, hnn, hid⟩
    · rintro ⟨e, he, raw, ms, hms, nn, hnn, hid⟩
      exact ⟨e, he, (mem_groupMemberIds _ _).mpr
        ⟨raw, ms, hms, (mem_memberIds _ _).mpr ⟨nn, hnn, hid⟩⟩⟩
  refine ⟨rfl, List.filter_sublist _, hiff, ?_, ?_⟩
  · intro n _ href hmem
    have hfalse := List.of_mem_filter hmem
    simp only [Bool.not_eq_true'] at hfalse
    have htrue : (childIdsOf d.entries).contains n.id = true :=
      List.elem_iff.mpr ((hiff n).mpr href)
    rw [htrue] at hfalse
    cases hfalse
  · intro h
    simp only [stringifyDataset, h, List.filter_nil, List.map_nil, List.isEmpty_nil,
      if_true]
    rfl

/-- Witness for C5's hypotheses: in a two-entry dataset where entry `B`
(id 1) is a member of entry `A`'s group, `B` is not among the rendered
roots; and the empty dataset renders to the empty string. -/
theorem stringifyDataset_is_root_render_witness :
    (CharacterNode.mk 1 "B".toList .nil) ∉
      ([CharacterNode.mk 0 "A".toList
          (.cons (.group "g".toList (.cons (.node (.mk 1 "B".toList .nil)) .nil)) .nil),
        CharacterNode.mk 1 "B".toList .nil].filter
        (fun n => !(childIdsOf
          [CharacterNode.mk 0 "A".toList
              (.cons (.group "g".toList (.cons (.node (.mk 1 "B".toList .nil)) .nil)) .nil),
            CharacterNode.mk 1 "B".toList .nil]).contains n.id)) ∧
    stringifyDataset ⟨[], []⟩ = [] := by
  constructor
  · exact (stringifyDataset_is_root_render
      ⟨[CharacterNode.mk 0 "A".toList
          (.cons (.group "g".toList (.cons (.node (.mk 1 "B".toList .nil)) .nil)) .nil),
        CharacterNode.mk 1 "B".toList .nil], []⟩).2.2.2.1
      (CharacterNode.mk 1 "B".toList .nil) (by simp)
      ⟨CharacterNode.mk 0 "A".toList
          (.cons (.group "g".toList (.cons (.node (.mk 1 "B".toList .nil)) .nil)) .nil),
        by simp, "g".toList, .cons (.node (.mk 1 "B".toList .nil)) .nil,
        by simp [CharacterNode.fragments, FragmentList.toList],
        .mk 1 "B".toList .nil, by simp [CharacterList.toList], rfl⟩
  · exact (stringifyDataset_is_root_render ⟨[], []⟩).2.2.2.2 rfl

/-! ## C10 -/

theorem readRoundFlat_issues (rem path : Str) (iss : List ParseIssue) :
    ∃ d, (readRoundFlat rem path iss).2.2 = iss ++ d := by
  rcases rem with _ | ⟨c, tail⟩
  · exact ⟨[], by simp [readRoundFlat]⟩
  · rcases h : readRoundGo tail 1 [] false with ⟨inner, rest, sawNested, matched⟩
    simp only [readRoundFlat, h]
    cases matched
    · exact ⟨_, rfl⟩
    · cases sawNested
      · exact ⟨[], by simp⟩
      · exact ⟨_, rfl⟩

theorem readSquareGo_issues (path : Str) :
    ∀ (fuel : Nat) (rem : Str) (depth : Nat) (acc : Str) (iss : List ParseIssue),
      ∃ d, (readSquareGo path fuel rem depth acc iss).2 = iss ++ d := by
  intro fuel
  induction fuel with
  | zero => intro rem depth acc iss; exact ⟨[], by simp [readSquareGo]⟩
  | succ fuel ih =>
    intro rem depth acc iss
    rcases rem with _ | ⟨c, rest⟩
    · exact ⟨[], by simp [readSquareGo]⟩
    · simp only [readSquareGo]
      split_ifs with h1 h2 h3 h4
      · exact ih _ _ _ _
      · exact ⟨[], by simp⟩
      · exact ih _ _ _ _
      · rcases hr : readRoundFlat (c :: rest) path iss with ⟨inner, rrest, iss2⟩
        obtain ⟨d1, hd1⟩ := readRoundFlat_issues (c :: rest) path iss
        rw [hr] at hd1
        dsimp only at hd1
        obtain ⟨d2, hd2⟩ := ih rrest depth
          (((c :: rest).take ((c :: rest).length - rrest.length)).reverse ++ acc) iss2
        exact ⟨d1 ++ d2, by simp only [hr]; rw [hd2, hd1, List.append_assoc]⟩
      · exact ih _ _ _ _

theorem readSquareBalanced_issues (rem path : Str) (iss : List ParseIssue) :
    ∃ d, (readSquareBalanced rem path iss).2.2 = iss ++ d := by
  rcases rem with _ | ⟨c, tail⟩
  · exact ⟨[], by simp [readSquareBalanced]⟩
  · obtain ⟨d1, hd1⟩ := readSquareGo_issues path (tail.length + 1) tail 1 [] iss
    rcases h : readSquareGo path (tail.length + 1) tail 1 [] iss
      with ⟨⟨inner, rest, matched⟩, iss2⟩
    rw [h] at hd1
    dsimp only at hd1
    simp only [readSquareBalanced, h]
    cases matched
    · exact ⟨d1 ++ [⟨.UNMATCHED_SQUARE, c :: tail, path⟩], by
        dsimp only; rw [hd1, List.append_assoc]⟩
    · exact ⟨d1, hd1⟩

/-- Issues are append-only through the whole node-parser family. -/
theorem parse_issues_append :
    ∀ fuel : Nat,
      (∀ e p st, ∃ d, (parseNode fuel e p st).2.issues = st.issues ++ d) ∧
      (∀ rem p b st, ∃ d, (parseFragments fuel rem p b st).2.issues = st.issues ++ d) ∧
      (∀ inner p st, ∃ d, (handleSquare fuel inner p st).2.issues = st.issues ++ d) ∧
      (∀ inner p st, ∃ d, (parseMemberList fuel inner p st).2.issues = st.issues ++ d) ∧
      (∀ parts k p st, ∃ d, (parseMembers fuel parts k p st).2.issues = st.issues ++ d) := by
  intro fuel
  induction fuel with
  | zero =>
    refine ⟨?_, ?_, ?_, ?_, ?_⟩ <;> intro _ _ _ <;> try intro _
    all_goals exact ⟨[], by
      simp [parseNode, parseFragments, handleSquare, parseMemberList, parseMembers]⟩
  | succ fuel ih =>
    obtain ⟨ihN, ihF, ihS, ihM, ihP⟩ := ih
    have hsq : ∀ (c : Char) (rest p : Str) (b : Bool) (st : PState)
        (iss1 d0 : List ParseIssue), iss1 = st.issues ++ d0 →
        ∃ d, (match readSquareBalanced (c :: rest) p iss1 with
          | (inner, rrest, iss2) =>
            match handleSquare fuel inner p { st with issues := iss2 } with
            | (fr, st2) =>
              match parseFragments fuel rrest p b st2 with
              | (frs, st3) => (FragmentList.cons fr frs, st3)).2.issues =
          st.issues ++ d := by
      intro c rest p b st iss1 d0 h0
      obtain ⟨d1, hd1⟩ := readSquareBalanced_issues (c :: rest) p iss1
      rcases hr : readSquareBalanced (c :: rest) p iss1 with ⟨inner, rrest, iss2⟩
      rw [hr] at hd1
      dsimp only at hd1
      rcases hs : handleSquare fuel inner p { st with issues := iss2 } with ⟨fr, st2⟩
      obtain ⟨d2, hd2⟩ := ihS inner p { st with issues := iss2 }
      rw [hs] at hd2
      dsimp only at hd2
      rcases hf : parseFragments fuel rrest p b st2 with ⟨frs, st3⟩
      obtain ⟨d3, hd3⟩ := ihF rrest p b st2
      rw [hf] at hd3
      dsimp only at hd3
      refine ⟨d0 ++ d1 ++ d2 ++ d3, ?_⟩
      simp only [hr, hs, hf]
      try dsimp only
      rw [hd3, hd2, hd1, h0]
      simp [List.append_assoc]
    refine ⟨?_, ?_, ?_, ?_, ?_⟩
    · intro e p st
      by_cases h : trim (e.take (firstBracket e)) = []
      · exact ⟨[⟨.MISSING_NAME, e, p⟩], by simp [parseNode, h]⟩
      · rcases hf : parseFragments fuel (e.drop (firstBracket e)) p false st with ⟨frs, st2⟩
        obtain ⟨d, hd⟩ := ihF (e.drop (firstBracket e)) p false st
        rw [hf] at hd
        dsimp only at hd
        exact ⟨d, by simp [parseNode, h, hf, hd]⟩
    · intro rem p b st
      rcases rem with _ | ⟨c, rest⟩
      · exact ⟨[], by simp [parseFragments]⟩
      · simp only [parseFragments]
        split_ifs with h1 h2 h3 hb
        · exact ihF rest p b st
        · rcases hr : readRoundFlat (c :: rest) p st.issues with ⟨inner, rrest, iss2⟩
          obtain ⟨d1, hd1⟩ := readRoundFlat_issues (c :: rest) p st.issues
          rw [hr] at hd1
          dsimp only at hd1
          rcases hf : parseFragments fuel rrest p true { st with issues := iss2 } with ⟨frs, st2⟩
          obtain ⟨d2, hd2⟩ := ihF rrest p true { st with issues := iss2 }
          rw [hf] at hd2
          dsimp only at hd2
          refine ⟨d1 ++ d2, ?_⟩
          simp only [hr, hf]
          try dsimp only
          rw [hd2, hd1]
          simp [List.append_assoc]
        · exact hsq c rest p b st _ [⟨.INVALID_FRAGMENT_ORDER, c :: rest, p⟩] rfl
        · exact hsq c rest p b st _ [] (by simp)
        · exact ihF rest p b st
    · intro inner p st
      simp only [handleSquare, scanSepCheck_eq2]
      by_cases h1 : inner.contains '['
      · simp only [h1, if_true]
        rcases hm : parseMemberList fuel inner (p ++ ".group".toList)
          { st with issues := st.issues ++ scanIssues inner (p ++ ".square".toList) }
          with ⟨members, st2⟩
        obtain ⟨d, hd⟩ := ihM inner (p ++ ".group".toList)
          { st with issues := st.issues ++ scanIssues inner (p ++ ".square".toList) }
        rw [hm] at hd
        dsimp only at hd
        exact ⟨scanIssues inner (p ++ ".square".toList) ++ d, by
          simp only [hm]
          try dsimp only
          rw [hd]
          simp [List.append_assoc]⟩
      · simp only [h1, if_false]
        by_cases h2 : hasTopSep inner
        · exact ⟨scanIssues inner (p ++ ".square".toList) ++
            [⟨.AMBIGUOUS_SQUARE_LIST, '[' :: inner ++ [']'], p⟩], by simp [h2]⟩
        · exact ⟨scanIssues inner (p ++ ".square".toList), by simp [h2]⟩
    · intro inner p st
      simp only [parseMemberList, splitByTopLevelSemicolon_eq]
      rcases hp : parseMembers fuel (splitPieces inner) 0 p
        { st with issues := st.issues ++ scanIssues inner p } with ⟨ms, st2⟩
      obtain ⟨d, hd⟩ := ihP (splitPieces inner) 0 p
        { st with issues := st.issues ++ scanIssues inner p }
      rw [hp] at hd
      dsimp only at hd
      exact ⟨scanIssues inner p ++ d, by
        simp only [hp]
        try dsimp only
        rw [hd]
        simp [List.append_assoc]⟩
    · intro parts k p st
      rcases parts with _ | ⟨part, parts⟩
      · exact ⟨[], by simp [parseMembers]⟩
      · simp only [parseMembers]
        split_ifs with h1 h2
        · exact ihP parts (k + 1) p st
        · rcases hp : parseMembers fuel parts (k + 1) p
            { st with issues := st.issues ++
                [⟨.INVALID_MEMBER_ALIAS_ONLY, trim part,
                  p ++ '[' :: (toString k).toList ++ [']']⟩] } with ⟨ms, st2⟩
          obtain ⟨d, hd⟩ := ihP parts (k + 1) p
            { st with issues := st.issues ++
                [⟨.INVALID_MEMBER_ALIAS_ONLY, trim part,
                  p ++ '[' :: (toString k).toList ++ [']']⟩] }
          rw [hp] at hd
          dsimp only at hd
          refine ⟨[⟨.INVALID_MEMBER_ALIAS_ONLY, trim part,
            p ++ '[' :: (toString k).toList ++ [']']⟩] ++ d, ?_⟩
          simp only [hp]
          try dsimp only
          rw [hd]
          simp [List.append_assoc]
        · rcases hn : parseNode fuel (trim part) (p ++ '[' :: (toString k).toList ++ [']']) st
            with ⟨n, st2⟩
          obtain ⟨d1, hd1⟩ := ihN (trim part) (p ++ '[' :: (toString k).toList ++ [']']) st
          rw [hn] at hd1
          dsimp only at hd1
          rcases hp : parseMembers fuel parts (k + 1) p st2 with ⟨ms, st3⟩
          obtain ⟨d2, hd2⟩ := ihP parts (k + 1) p st2
          rw [hp] at hd2
          dsimp only at hd2
          rcases n with _ | node
          · exact ⟨d1 ++ d2, by
              simp only [hn, hp]
              try dsimp only
              rw [hd2, hd1]
              simp [List.append_assoc]⟩
          · exact ⟨d1 ++ d2, by
              simp only [hn, hp]
              try dsimp only
              rw [hd2, hd1]
              simp [List.append_assoc]⟩

/-- C10: when a square bracket is classified as a group, the ambiguity
scan and the member-list split each run the scanner over the same inner
text, so the scan's stray-closer issues are appended twice in a row —
identical in code and raw, differing only in the `.square` vs `.group`
path — and they can only be `EXTRA_CLOSING_ROUND`/`EXTRA_CLOSING_SQUARE`. -/
theorem group_interior_double_scan :
    ∀ (fuel : Nat) (inner path : Str) (st : PState),
      inner.contains '[' = true →
      (∃ rest,
        (handleSquare (fuel + 2) inner path st).2.issues =
          st.issues ++ scanIssues inner (path ++ ".square".toList) ++
            scanIssues inner (path ++ ".group".toList) ++ rest) ∧
      ((scanIssues inner (path ++ ".square".toList)).map (fun x => (x.code, x.raw)) =
        (scanIssues inner (path ++ ".group".toList)).map (fun x => (x.code, x.raw))) ∧
      (∀ x ∈ scanIssues inner (path ++ ".square".toList),
        x.code = .EXTRA_CLOSING_ROUND ∨ x.code = .EXTRA_CLOSING_SQUARE) := by
  intro fuel inner path st h
  refine ⟨?_, scanIssuesFrom_code_raw _ _ _ _ _ _,
    fun x hx => scanIssuesFrom_codes _ _ _ _ _ x hx⟩
  have hM := (square_classification (fuel + 1) inner path st).1 h
  rw [show fuel + 2 = (fuel + 1) + 1 from rfl, hM]
  simp only [parseMemberList, splitByTopLevelSemicolon_eq]
  rcases hp : parseMembers fuel (splitPieces inner) 0 (path ++ ".group".toList)
    { ({ st with issues := st.issues ++ scanIssues inner (path ++ ".square".toList) } : PState)
      with issues :=
        ({ st with issues :=
            st.issues ++ scanIssues inner (path ++ ".square".toList) } : PState).issues ++
          scanIssues inner (path ++ ".group".toList) } with ⟨ms, st2⟩
  obtain ⟨d, hd⟩ := (parse_issues_append fuel).2.2.2.2 (splitPieces inner) 0
    (path ++ ".group".toList)
    { ({ st with issues := st.issues ++ scanIssues inner (path ++ ".square".toList) } : PState)
      with issues :=
        ({ st with issues :=
            st.issues ++ scanIssues inner (path ++ ".square".toList) } : PState).issues ++
          scanIssues inner (path ++ ".group".toList) }
  rw [hp] at hd
  dsimp only at hd
  refine ⟨d, ?_⟩
  simp only [hp]
  try dsimp only
  rw [hd]

/-- Witness for C10's hypothesis at the concrete interior `"a[b])"` (which
contains a `[` and a stray `)` at its top level). -/
theorem group_interior_double_scan_witness :
    ∃ rest,
      (handleSquare 2 "a[b])".toList "p".toList ⟨[], 0⟩).2.issues =
        ([] : List ParseIssue) ++ scanIssues "a[b])".toList ("p".toList ++ ".square".toList) ++
          scanIssues "a[b])".toList ("p".toList ++ ".group".toList) ++ rest :=
  (group_interior_double_scan 0 "a[b])".toList "p".toList ⟨[], 0⟩ (by decide)).1

/-! ## C8 -/

/-- Every top-level character reported by the scanner sits at clamped
depth `(0, 0)` (relative form). -/
theorem mem_topLevelCharsFrom (c : Char) (j : Nat) :
    ∀ (s : Str) (i r q : Nat), (c, j) ∈ topLevelCharsFrom s i r q →
      ∃ k, j = i + k ∧ s.get? k = some c ∧ (s.take k).foldl depthStep (r, q) = (0, 0) := by
  intro s
  induction s with
  | nil => intro i r q h; simp [topLevelCharsFrom] at h
  | cons c0 rest ih =>
    intro i r q h
    simp only [topLevelCharsFrom] at h
    have lift : ∀ (r' q' : Nat), depthStep (r, q) c0 = (r', q') →
        (c, j) ∈ topLevelCharsFrom rest (i + 1) r' q' →
        ∃ k, j = i + k ∧ (c0 :: rest).get? k = some c ∧
          ((c0 :: rest).take k).foldl depthStep (r, q) = (0, 0) := by
      intro r' q' hd hm
      obtain ⟨k, hk, hg, hf⟩ := ih (i + 1) r' q' hm
      refine ⟨k + 1, by omega, by simpa using hg, ?_⟩
      simpa [hd] using hf
    split_ifs at h with h1 h2 h3 h4 h5 h6 h7
    · exact lift _ _ (by simp [depthStep, h1]) h
    · exact lift _ _ (by simp [depthStep, h1, h2, h3]) h
    · exact lift _ _ (by simp [depthStep, h1, h2, h3]) h
    · exact lift _ _ (by simp [depthStep, h1, h2, h4]) h
    · exact lift _ _ (by simp [depthStep, h1, h2, h4, h5, h6]) h
    · exact lift _ _ (by simp [depthStep, h1, h2, h4, h5, h6]) h
    · rcases List.mem_cons.mp h with h0 | h0
      · injection h0 with hc hj
        subst hc
        subst hj
        have h7' : r = 0 ∧ q = 0 := by simpa using h7
        exact ⟨0, by omega, by simp, by simp [h7'.1, h7'.2]⟩
      · exact lift _ _ (by simp [depthStep, h1, h2, h4, h5]) h0
    · exact lift _ _ (by simp [depthStep, h1, h2, h4, h5]) h

theorem foldSplit (s : Str) :
    ∀ (pairs : List (Char × Nat)) (out : List Str) (start : Nat),
      ((pairs.foldl (splitCutStep s) (out, start)).1 ++
        [s.drop (pairs.foldl (splitCutStep s) (out, start)).2]) =
      out ++ slicesAt s start
        (pairs.filterMap (fun p => if p.1 = ';' then some p.2 else none)) := by
  intro pairs
  induction pairs with
  | nil => intro out start; simp [slicesAt]
  | cons p ps ih =>
    intro out start
    by_cases hp : p.1 = ';'
    · have hstep : splitCutStep s (out, start) p =
          (out ++ [(s.take p.2).drop start], p.2 + 1) := by
        simp [splitCutStep, hp]
      simp only [List.foldl_cons, List.filterMap_cons, hstep]
      rw [ih]
      simp [hp, slicesAt]
    · have hstep : splitCutStep s (out, start) p = (out, start) := by
        simp [splitCutStep, hp]
      simp only [List.foldl_cons, List.filterMap_cons, hstep]
      rw [ih]
      simp [hp]

theorem splitPieces_eq_slicesAt (s : Str) :
    splitPieces s = slicesAt s 0 (splitBoundaries s) := by
  have hcb : ∀ (st : List Str × Nat) (c : Char) (i : Nat),
      ((fun (st : List Str × Nat) c i =>
          if c = ';' then ((st.1 ++ [(s.take i).drop st.2], i + 1), true)
          else (st, true)) st c i).2 = true := by
    intro st c i; by_cases h : c = ';' <;> simp [h]
  have hfun : (fun (st : List Str × Nat) (p : Char × Nat) =>
      (if p.1 = ';' then ((st.1 ++ [(s.take p.2).drop st.2], p.2 + 1), true)
        else (st, true)).1) = splitCutStep s := by
    funext st p
    by_cases h : p.1 = ';' <;> simp [splitCutStep, h]
  simp only [splitPieces, splitByTopLevelSemicolon, scanTopLevel]
  rw [scanTopLevelGo_split _ _ hcb]
  try dsimp only
  rw [hfun]
  have hf := foldSplit s (topLevelCharsFrom s 0 0 0) [] 0
  simpa [splitBoundaries, topLevelChars] using hf

/-- C8: a `;` at nonzero clamped bracket depth is never a split point:
`splitByTopLevelSemicolon` (used both for top-level entries and for group
member lists) cuts exactly at `splitBoundaries`, and a position whose
depth counters are not `(0, 0)` is never such a boundary. -/
theorem semicolon_in_brackets_never_splits :
    (∀ (s path : Str) (iss : List ParseIssue),
      (splitByTopLevelSemicolon s path iss).2 = slicesAt s 0 (splitBoundaries s)) ∧
    (∀ (s : Str) (i : Nat), s.get? i = some ';' → depthAt s i ≠ (0, 0) →
      i ∉ splitBoundaries s) := by
  constructor
  · intro s path iss
    rw [splitByTopLevelSemicolon_eq, splitPieces_eq_slicesAt]
  · intro s i _ hdep hmem
    apply hdep
    rcases List.mem_filterMap.mp hmem with ⟨⟨c, j⟩, hj, hcut⟩
    have hc : c = ';' ∧ j = i := by
      by_cases h : c = ';'
      · refine ⟨h, ?_⟩
        rw [if_pos h] at hcut
        exact Option.some.inj hcut
      · rw [if_neg h] at hcut
        cases hcut
    rcases hc with ⟨hc, hj2⟩
    subst hc
    subst hj2
    obtain ⟨k, hk, _, hf⟩ := mem_topLevelCharsFrom ';' j s 0 0 0 hj
    have : j = k := by omega
    subst this
    exact hf

/-- Witness for C8: in `"a(;)b"` the `;` at index 2 sits at depth `(1, 0)`
and is not a split boundary. -/
theorem semicolon_in_brackets_never_splits_witness :
    (2 : Nat) ∉ splitBoundaries "a(;)b".toList :=
  semicolon_in_brackets_never_splits.2 "a(;)b".toList 2 (by decide) (by decide)

/-! ## C6 -/

theorem preFrags_cons (f : Fragment) (fs : FragmentList) :
    preFrags (.cons f fs) = preFrag f ++ preFrags fs := by
  cases f <;> simp [preFrags, preFrag]

mutual
/-- With globally distinct ids and a `seen` set disjoint from the subtree,
the guarded `visit` is the plain preorder (the guard never fires). -/
theorem visitNode_eq :
    ∀ (n : CharacterNode) (seen : List Nat) (acc : List CharacterNode),
      ((preNode n).map CharacterNode.id).Nodup →
      (∀ a ∈ seen, a ∉ (preNode n).map CharacterNode.id) →
      visitNode n (seen, acc) =
        (((preNode n).map CharacterNode.id).reverse ++ seen, acc ++ preNode n)
  | .mk i nm frs, seen, acc => fun h1 h2 => by
    have hguard : i ∉ seen := fun hin =>
      h2 i hin (by simp [preNode, CharacterNode.id])
    have h1' : ((preFrags frs).map CharacterNode.id).Nodup ∧
        i ∉ (preFrags frs).map CharacterNode.id := by
      have := h1
      simp only [preNode, List.map_cons, CharacterNode.id, List.nodup_cons] at this
      exact ⟨this.2, this.1⟩
    have h2' : ∀ a ∈ i :: seen, a ∉ (preFrags frs).map CharacterNode.id := by
      intro a ha
      rcases List.mem_cons.mp ha with ha | ha
      · exact ha ▸ h1'.2
      · intro hin
        exact h2 a ha (by simp [preNode, CharacterNode.id, List.mem_cons, hin])
    rw [show visitNode (.mk i nm frs) (seen, acc) =
        visitFrags frs (i :: seen, acc ++ [.mk i nm frs]) from by
      simp [visitNode, hguard]]
    rw [visitFrags_eq frs (i :: seen) (acc ++ [CharacterNode.mk i nm frs]) h1'.1 h2']
    simp [preNode, CharacterNode.id, List.append_assoc]
  termination_by structural n _ _ => n

theorem visitFrags_eq :
    ∀ (fs : FragmentList) (seen : List Nat) (acc : List CharacterNode),
      ((preFrags fs).map CharacterNode.id).Nodup →
      (∀ a ∈ seen, a ∉ (preFrags fs).map CharacterNode.id) →
      visitFrags fs (seen, acc) =
        (((preFrags fs).map CharacterNode.id).reverse ++ seen, acc ++ preFrags fs)
  | .nil, seen, acc => fun _ _ => by simp [visitFrags, preFrags]
  | .cons (.group raw ms) fs, seen, acc => fun h1 h2 => by
    have hsplit : ((preMembers ms).map CharacterNode.id).Nodup ∧
        ((preFrags fs).map CharacterNode.id).Nodup ∧
        ((preMembers ms).map CharacterNode.id).Disjoint
          ((preFrags fs).map CharacterNode.id) := by
      have := h1
      simp only [preFrags, List.map_append, List.nodup_append] at this
      exact this
    have h2' : ∀ a ∈ seen, a ∉ (preMembers ms).map CharacterNode.id := by
      intro a ha hin
      exact h2 a ha (by simp [preFrags, List.map_append, hin])
    rw [show visitFrags (.cons (.group raw ms) fs) (seen, acc) =
        visitFrags fs (visitMembers ms (seen, acc)) from by simp [visitFrags]]
    rw [visitMembers_eq ms seen acc hsplit.1 h2']
    have h2'' : ∀ a ∈ ((preMembers ms).map CharacterNode.id).reverse ++ seen,
        a ∉ (preFrags fs).map CharacterNode.id := by
      intro a ha
      rcases List.mem_append.mp ha with ha | ha
      · exact hsplit.2.2 (List.mem_reverse.mp ha)
      · intro hin
        exact h2 a ha (by simp [preFrags, List.map_append, hin])
    rw [visitFrags_eq fs _ _ hsplit.2.1 h2'']
    simp [preFrags, List.map_append, List.reverse_append, List.append_assoc]
  | .cons (.alias raw) fs, seen, acc => fun h1 h2 => by
    rw [show visitFrags (.cons (.alias raw) fs) (seen, acc) =
        visitFrags fs (seen, acc) from by simp [visitFrags]]
    rw [visitFrags_eq fs seen acc (by simpa [preFrags] using h1)
      (by simpa [preFrags] using h2)]
    simp [preFrags]
  | .cons (.info raw) fs, seen, acc => fun h1 h2 => by
    rw [show visitFrags (.cons (.info raw) fs) (seen, acc) =
        visitFrags fs (seen, acc) from by simp [visitFrags]]
    rw [visitFrags_eq fs seen acc (by simpa [preFrags] using h1)
      (by simpa [preFrags] using h2)]
    simp [preFrags]
  termination_by structural l _ _ => l

theorem visitMembers_eq :
    ∀ (ms : CharacterList) (seen : List Nat) (acc : List CharacterNode),
      ((preMembers ms).map CharacterNode.id).Nodup →
      (∀ a ∈ seen, a ∉ (preMembers ms).map CharacterNode.id) →
      visitMembers ms (seen, acc) =
        (((preMembers ms).map CharacterNode.id).reverse ++ seen, acc ++ preMembers ms)
  | .nil, seen, acc => fun _ _ => by simp [visitMembers, preMembers]
  | .cons (.node n) ms, seen, acc => fun h1 h2 => by
    have hsplit : ((preNode n).map CharacterNode.id).Nodup ∧
        ((preMembers ms).map CharacterNode.id).Nodup ∧
        ((preNode n).map CharacterNode.id).Disjoint
          ((preMembers ms).map CharacterNode.id) := by
      have := h1
      simp only [preMembers, List.map_append, List.nodup_append] at this
      exact this
    have h2' : ∀ a ∈ seen, a ∉ (preNode n).map CharacterNode.id := by
      intro a ha hin
      exact h2 a ha (by simp [preMembers, List.map_append, hin])
    rw [show visitMembers (.cons (.node n) ms) (seen, acc) =
        visitMembers ms (visitNode n (seen, acc)) from by simp [visitMembers]]
    rw [visitNode_eq n seen acc hsplit.1 h2']
    have h2'' : ∀ a ∈ ((preNode n).map CharacterNode.id).reverse ++ seen,
        a ∉ (preMembers ms).map CharacterNode.id := by
      intro a ha
      rcases List.mem_append.mp ha with ha | ha
      · exact hsplit.2.2 (List.mem_reverse.mp ha)
      · intro hin
        exact h2 a ha (by simp [preMembers, List.map_append, hin])
    rw [visitMembers_eq ms _ _ hsplit.2.1 h2'']
    simp [preMembers, List.map_append, List.reverse_append, List.append_assoc]
  | .cons (.raw r) ms, seen, acc => fun h1 h2 => by
    rw [show visitMembers (.cons (.raw r) ms) (seen, acc) =
        visitMembers ms (seen, acc) from by simp [visitMembers]]
    rw [visitMembers_eq ms seen acc (by simpa [preMembers] using h1)
      (by simpa [preMembers] using h2)]
    simp [preMembers]
  termination_by structural l _ _ => l
end

theorem IdsIn.nil (lo hi : Nat) : IdsIn [] lo hi := ⟨by simp, by simp⟩

theorem IdsIn.mono {l : List CharacterNode} {lo hi lo' hi' : Nat}
    (h : IdsIn l lo hi) (h1 : lo' ≤ lo) (h2 : hi ≤ hi') : IdsIn l lo' hi' :=
  ⟨fun x hx => ⟨le_trans h1 (h.1 x hx).1, lt_of_lt_of_le (h.1 x hx).2 h2⟩, h.2⟩

theorem IdsIn.append {l1 l2 : List CharacterNode} {lo mid hi : Nat}
    (h1 : IdsIn l1 lo mid) (h2 : IdsIn l2 mid hi) (hlm : lo ≤ mid) (hmh : mid ≤ hi) :
    IdsIn (l1 ++ l2) lo hi := by
  refine ⟨?_, ?_⟩
  · intro x hx
    rw [List.map_append] at hx
    rcases List.mem_append.mp hx with hx1 | hx1
    · exact ⟨(h1.1 x hx1).1, lt_of_lt_of_le (h1.1 x hx1).2 hmh⟩
    · exact ⟨le_trans hlm (h2.1 x hx1).1, (h2.1 x hx1).2⟩
  · rw [List.map_append, List.nodup_append]
    refine ⟨h1.2, h2.2, ?_⟩
    intro x hx1 hx2
    exact absurd (h2.1 x hx2).1 (by have := (h1.1 x hx1).2; omega)

/-- Freshness: every parse function only advances the id counter, and the
preorder ids of whatever it produces are exactly fresh ones, distinct. -/
theorem parse_fresh :
    ∀ fuel : Nat,
      (∀ e p st,
        st.nextId ≤ (parseNode fuel e p st).2.nextId ∧
        ∀ n, (parseNode fuel e p st).1 = some n →
          IdsIn (preNode n) st.nextId (parseNode fuel e p st).2.nextId) ∧
      (∀ rem p b st,
        st.nextId ≤ (parseFragments fuel rem p b st).2.nextId ∧
        IdsIn (preFrags (parseFragments fuel rem p b st).1) st.nextId
          (parseFragments fuel rem p b st).2.nextId) ∧
      (∀ inner p st,
        st.nextId ≤ (handleSquare fuel inner p st).2.nextId ∧
        IdsIn (preFrag (handleSquare fuel inner p st).1) st.nextId
          (handleSquare fuel inner p st).2.nextId) ∧
      (∀ inner p st,
        st.nextId ≤ (parseMemberList fuel inner p st).2.nextId ∧
        IdsIn (preMembers (parseMemberList fuel inner p st).1) st.nextId
          (parseMemberList fuel inner p st).2.nextId) ∧
      (∀ parts k p st,
        st.nextId ≤ (parseMembers fuel parts k p st).2.nextId ∧
        IdsIn (preMembers (parseMembers fuel parts k p st).1) st.nextId
          (parseMembers fuel parts k p st).2.nextId) := by
  intro fuel
  induction fuel with
  | zero =>
    refine ⟨?_, ?_, ?_, ?_, ?_⟩
    · intro e p st
      exact ⟨le_refl _, fun n hn => by simp [parseNode] at hn⟩
    · intro rem p b st
      exact ⟨le_refl _, by simpa [parseFragments, preFrags] using IdsIn.nil _ _⟩
    · intro inner p st
      exact ⟨le_refl _, by simpa [handleSquare, preFrag, trim] using IdsIn.nil _ _⟩
    · intro inner p st
      exact ⟨le_refl _, by simpa [parseMemberList, preMembers] using IdsIn.nil _ _⟩
    · intro parts k p st
      exact ⟨le_refl _, by simpa [parseMembers, preMembers] using IdsIn.nil _ _⟩
  | succ fuel ih =>
    obtain ⟨ihN, ihF, ihS, ihM, ihP⟩ := ih
    refine ⟨?_, ?_, ?_, ?_, ?_⟩
    · intro e p st
      by_cases h : trim (e.take (firstBracket e)) = []
      · refine ⟨by simp [parseNode, h], fun n hn => ?_⟩
        simp [parseNode, h] at hn
      · rcases hf : parseFragments fuel (e.drop (firstBracket e)) p false st with ⟨frs, st2⟩
        have hih := ihF (e.drop (firstBracket e)) p false st
        rw [hf] at hih
        dsimp only at hih
        simp only [parseNode, hf]
        rw [if_neg h]
        try dsimp only
        refine ⟨by omega, fun n hn => ?_⟩
        have hn2 : CharacterNode.mk st2.nextId (trim (e.take (firstBracket e))) frs = n := by
          simpa using hn
        subst hn2
        constructor
        · intro x hx
          simp only [preNode, List.map_cons, CharacterNode.id, List.mem_cons] at hx
          rcases hx with hx | hx
          · subst hx
            exact ⟨hih.1, by omega⟩
          · have := hih.2.1 x hx
            exact ⟨this.1, by omega⟩
        · simp only [preNode, List.map_cons, CharacterNode.id, List.nodup_cons]
          exact ⟨fun hin => by have := (hih.2.1 _ hin).2; omega, hih.2.2⟩
    · intro rem p b st
      rcases rem with _ | ⟨c, rest⟩
      · exact ⟨by simp [parseFragments], by
          simpa [parseFragments, preFrags] using IdsIn.nil _ _⟩
      · simp only [parseFragments]
        split_ifs with h1 h2 h3 hb
        · exact ihF rest p b st
        · rcases hr : readRoundFlat (c :: rest) p st.issues with ⟨inner, rrest, iss2⟩
          rcases hf : parseFragments fuel rrest p true { st with issues := iss2 } with ⟨frs, st2⟩
          have hih := ihF rrest p true { st with issues := iss2 }
          rw [hf] at hih
          dsimp only at hih
          simp only [hr, hf]
          try dsimp only
          refine ⟨hih.1, ?_⟩
          rw [preFrags_cons]
          simpa [preFrag] using hih.2
        · rcases hq : readSquareBalanced (c :: rest) p
            (st.issues ++ [⟨.INVALID_FRAGMENT_ORDER, c :: rest, p⟩]) with ⟨inner, rrest, iss2⟩
          rcases hs : handleSquare fuel inner p { st with issues := iss2 } with ⟨fr, st2⟩
          have hihS := ihS inner p { st with issues := iss2 }
          rw [hs] at hihS
          dsimp only at hihS
          rcases hf : parseFragments fuel rrest p b st2 with ⟨frs, st3⟩
          have hihF := ihF rrest p b st2
          rw [hf] at hihF
          dsimp only at hihF
          simp only [hq, hs, hf]
          try dsimp only
          refine ⟨le_trans hihS.1 hihF.1, ?_⟩
          rw [preFrags_cons]
          exact IdsIn.append hihS.2 hihF.2 hihS.1 hihF.1
        · rcases hq : readSquareBalanced (c :: rest) p st.issues with ⟨inner, rrest, iss2⟩
          rcases hs : handleSquare fuel inner p { st with issues := iss2 } with ⟨fr, st2⟩
          have hihS := ihS inner p { st with issues := iss2 }
          rw [hs] at hihS
          dsimp only at hihS
          rcases hf : parseFragments fuel rrest p b st2 with ⟨frs, st3⟩
          have hihF := ihF rrest p b st2
          rw [hf] at hihF
          dsimp only at hihF
          simp only [hq, hs, hf]
          try dsimp only
          refine ⟨le_trans hihS.1 hihF.1, ?_⟩
          rw [preFrags_cons]
          exact IdsIn.append hihS.2 hihF.2 hihS.1 hihF.1
        · exact ihF rest p b st
    · intro inner p st
      simp only [handleSquare, scanSepCheck_eq2]
      by_cases h1 : inner.contains '['
      · simp only [h1, if_true]
        rcases hm : parseMemberList fuel inner (p ++ ".group".toList)
          { st with issues := st.issues ++ scanIssues inner (p ++ ".square".toList) }
          with ⟨members, st2⟩
        have hih := ihM inner (p ++ ".group".toList)
          { st with issues := st.issues ++ scanIssues inner (p ++ ".square".toList) }
        rw [hm] at hih
        dsimp only at hih
        simp only [hm]
        try dsimp only
        exact ⟨hih.1, by simpa [preFrag] using hih.2⟩
      · simp only [h1, if_false]
        by_cases h2 : hasTopSep inner <;>
          exact ⟨le_refl _, by simpa [preFrag] using IdsIn.nil _ _⟩
    · intro inner p st
      simp only [parseMemberList, splitByTopLevelSemicolon_eq]
      rcases hp : parseMembers fuel (splitPieces inner) 0 p
        { st with issues := st.issues ++ scanIssues inner p } with ⟨ms, st2⟩
      have hih := ihP (splitPieces inner) 0 p
        { st with issues := st.issues ++ scanIssues inner p }
      rw [hp] at hih
      dsimp only at hih
      simp only [hp]
      try dsimp only
      exact ⟨hih.1, hih.2⟩
    · intro parts k p st
      rcases parts with _ | ⟨part, parts⟩
      · exact ⟨by simp [parseMembers], by
          simpa [parseMembers, preMembers] using IdsIn.nil _ _⟩
      · simp only [parseMembers]
        split_ifs with h1 h2
        · exact ihP parts (k + 1) p st
        · rcases hp : parseMembers fuel parts (k + 1) p
            { st with issues := st.issues ++
                [⟨.INVALID_MEMBER_ALIAS_ONLY, trim part,
                  p ++ '[' :: (toString k).toList ++ [']']⟩] } with ⟨ms, st2⟩
          have hih := ihP parts (k + 1) p
            { st with issues := st.issues ++
                [⟨.INVALID_MEMBER_ALIAS_ONLY, trim part,
                  p ++ '[' :: (toString k).toList ++ [']']⟩] }
          rw [hp] at hih
          dsimp only at hih
          simp only [hp]
          try dsimp only
          exact ⟨hih.1, by simpa [preMembers] using hih.2⟩
        · rcases hn : parseNode fuel (trim part) (p ++ '[' :: (toString k).toList ++ [']']) st
            with ⟨n, st2⟩
          have hihN := ihN (trim part) (p ++ '[' :: (toString k).toList ++ [']']) st
          rw [hn] at hihN
          dsimp only at hihN
          rcases hp : parseMembers fuel parts (k + 1) p st2 with ⟨ms, st3⟩
          have hihP := ihP parts (k + 1) p st2
          rw [hp] at hihP
          dsimp only at hihP
          simp only [hn, hp]
          try dsimp only
          rcases n with _ | node
          · exact ⟨le_trans hihN.1 hihP.1, hihP.2.mono hihN.1 (le_refl _)⟩
          · refine ⟨le_trans hihN.1 hihP.1, ?_⟩
            have hnode := hihN.2 node rfl
            simp only [preMembers]
            exact IdsIn.append hnode hihP.2 hihN.1 hihP.1

theorem preTop_nil : preTop [] = [] := rfl

theorem preTop_cons (n : CharacterNode) (ns : List CharacterNode) :
    preTop (n :: ns) = preNode n ++ preTop ns := by simp [preTop]

/-- Freshness of the top-level entry loop. -/
theorem parseTopGo_fresh :
    ∀ (parts : List Str) (i : Nat) (st : PState),
      st.nextId ≤ (parseTopGo parts i st).2.nextId ∧
      IdsIn (preTop (parseTopGo parts i st).1) st.nextId
        (parseTopGo parts i st).2.nextId := by
  intro parts
  induction parts with
  | nil =>
    intro i st
    exact ⟨by simp [parseTopGo], by simpa [parseTopGo, preTop_nil] using IdsIn.nil _ _⟩
  | cons part parts ih =>
    intro i st
    simp only [parseTopGo]
    split_ifs with h1
    · exact ih (i + 1) st
    · rcases hn : parseNode (entryFuel (trim part)) (trim part)
        ("top[".toList ++ (toString i).toList ++ "]".toList) st with ⟨n, st2⟩
      have hihN := ((parse_fresh (entryFuel (trim part))).1 (trim part)
        ("top[".toList ++ (toString i).toList ++ "]".toList) st)
      rw [hn] at hihN
      dsimp only at hihN
      rcases hp : parseTopGo parts (i + 1) st2 with ⟨ns, st3⟩
      have hihP := ih (i + 1) st2
      rw [hp] at hihP
      dsimp only at hihP
      simp only [hn, hp]
      try dsimp only
      rcases n with _ | node
      · exact ⟨le_trans hihN.1 hihP.1, hihP.2.mono hihN.1 (le_refl _)⟩
      · refine ⟨le_trans hihN.1 hihP.1, ?_⟩
        have hnode := hihN.2 node rfl
        rw [preTop_cons]
        exact IdsIn.append hnode hihP.2 hihN.1 hihP.1

/-- The top-level visit fold is the plain preorder under distinct ids. -/
theorem visitTopGo_eq :
    ∀ (top : List CharacterNode) (seen : List Nat) (acc : List CharacterNode),
      ((preTop top).map CharacterNode.id).Nodup →
      (∀ a ∈ seen, a ∉ (preTop top).map CharacterNode.id) →
      top.foldl (fun s n => visitNode n s) (seen, acc) =
        (((preTop top).map CharacterNode.id).reverse ++ seen, acc ++ preTop top) := by
  intro top
  induction top with
  | nil => intro seen acc _ _; simp [preTop_nil]
  | cons n ns ih =>
    intro seen acc h1 h2
    rw [preTop_cons] at h1 h2
    have hsplit : ((preNode n).map CharacterNode.id).Nodup ∧
        ((preTop ns).map CharacterNode.id).Nodup ∧
        ((preNode n).map CharacterNode.id).Disjoint
          ((preTop ns).map CharacterNode.id) := by
      have := h1
      simp only [List.map_append, List.nodup_append] at this
      exact this
    have h2' : ∀ a ∈ seen, a ∉ (preNode n).map CharacterNode.id := by
      intro a ha hin
      exact h2 a ha (by simp [List.map_append, hin])
    simp only [List.foldl_cons]
    rw [visitNode_eq n seen acc hsplit.1 h2']
    have h2'' : ∀ a ∈ ((preNode n).map CharacterNode.id).reverse ++ seen,
        a ∉ (preTop ns).map CharacterNode.id := by
      intro a ha
      rcases List.mem_append.mp ha with ha | ha
      · exact hsplit.2.2 (List.mem_reverse.mp ha)
      · intro hin
        exact h2 a ha (by simp [List.map_append, hin])
    rw [ih _ _ hsplit.2.1 h2'']
    rw [preTop_cons]
    simp [List.map_append, List.reverse_append, List.append_assoc]

/-- C6: for every input, the `entries` of the parsed dataset are exactly
the first-visit depth-first left-to-right preorder of the top-level node
forest (the identity guard of the flatten step never fires because all
node ids are fresh), and no node id occurs twice in `entries`. -/
theorem parseDataset_entries_preorder (input : Str) :
    (parseDataset input).entries = preTop (parseTop input).1 ∧
    ((parseDataset input).entries.map CharacterNode.id).Nodup := by
  rcases hpt : parseTop input with ⟨top, st⟩
  have hfresh : IdsIn (preTop top) 0 st.nextId := by
    rcases hs : splitByTopLevelSemicolon input "input".toList [] with ⟨iss1, parts⟩
    have h := parseTopGo_fresh parts 0 ⟨iss1, 0⟩
    have hpt2 : parseTopGo parts 0 ⟨iss1, 0⟩ = (top, st) := by
      rw [← hpt]
      simp only [parseTop]
      rw [hs]
    rw [hpt2] at h
    dsimp only at h
    exact h.2
  have hnd : ((preTop top).map CharacterNode.id).Nodup := hfresh.2
  have hvisit := visitTopGo_eq top [] [] hnd (by simp)
  have hentries : (parseDataset input).entries = preTop top := by
    simp only [parseDataset, hpt]
    try dsimp only
    simp only [visitTop, hvisit]
    simp
  exact ⟨by simpa using hentries, by rw [hentries]; exact hnd⟩
